import Mathlib

/-!
Shallow embedding of the sconfig configuration-file parsing engine
(vendored in this repository under vendor/arp242.net/sconfig) and proofs
about its behaviour.

Go strings are modelled as `List Char`; the inputs exercised here are
ASCII, where Go byte indexing coincides with character indexing.  The
line number a logical line carries (a decimal string produced with
`fmt.Sprintf` in Go) is modelled as the `Nat` it denotes.  Runtime
panics (out-of-range indexing) are modelled explicitly: text helpers
return `Option`, and the readers have a distinguished `panicked` outcome.
Recursive file inclusion is modelled with an explicit fuel parameter so
that every definition is a computable structural recursion.
-/

namespace sconfig

/-- Characters accepted by Go `unicode.IsSpace` within the Latin-1 range
(the range the modelled inputs use). -/
def isGoSpace (c : Char) : Bool :=
  c = ' ' || c = '\t' || c = '\n' || c = '\x0b' || c = '\x0c' || c = '\r' ||
  c = '\u0085' || c = '\u00a0'

/-- ASCII whitespace bytes: the indentation test in `readFile` applies
`unicode.IsSpace(rune(line[0]))` to the first byte of the raw line, which
for ASCII text is the first character. -/
def isSpaceByte (c : Char) : Bool :=
  c = ' ' || c = '\t' || c = '\n' || c = '\x0b' || c = '\x0c' || c = '\r'

/-- Go `strings.TrimSpace`: drop leading and trailing whitespace. -/
def trimSpace (l : List Char) : List Char :=
  ((l.dropWhile isGoSpace).reverse.dropWhile isGoSpace).reverse

/-- Index of the first `'#'` in a character list, if any; models
`strings.Index(s, "#")`. -/
def findHash : List Char → Option Nat
  | [] => none
  | c :: rest => if c = '#' then some 0 else (findHash rest).map (· + 1)

/-- Loop of `removeComments`: repeatedly find the next `'#'` at or after
position `prevcmt`; if the preceding character is a backslash, delete the
backslash and continue after the hash, otherwise truncate there.  Reading
`line[cmt-1]` with `cmt = 0` is a Go index-out-of-range panic, modelled as
`none`.  The fuel argument only bounds the iteration count;
`removeComments` supplies enough fuel that the `0` case is unreachable. -/
def removeCommentsAux : Nat → List Char → Nat → Option (List Char)
  | 0, l, _ => some l
  | fuel + 1, l, prevcmt =>
    match findHash (l.drop prevcmt) with
    | none => some l
    | some k =>
      if prevcmt + k = 0 then none
      else if l[prevcmt + k - 1]? = some '\\' then
        removeCommentsAux fuel (l.take (prevcmt + k - 1) ++ l.drop (prevcmt + k)) (prevcmt + k)
      else some (l.take (prevcmt + k))

/-- Model of `removeComments`: strip the first unescaped `'#'` comment,
turning each escaped `\#` into a literal `#`. -/
def removeComments (l : List Char) : Option (List Char) :=
  removeCommentsAux (l.length + 1) l 0

/-- Specification scan for comment removal, following the spec's words:
process the line left to right; every `\#` yields a literal `#` and the
scan continues after it; the first unescaped `#` starts the discarded
comment.  `removeComments` is proved below to coincide with this scan on
every line whose first character is not a hash (the only lines
`readFile` passes it). -/
def rcSpec : List Char → List Char
  | [] => []
  | [c] => if c = '#' then [] else [c]
  | c :: d :: rest =>
    if c = '#' then []
    else if c = '\\' ∧ d = '#' then '#' :: rcSpec rest
    else c :: rcSpec (d :: rest)

/-- Loop body of `collapseWhitespace`, iterating over the characters of
`orig` with their indices.  Reading `orig[i-1]` at `i = 0` (a leading
backslash) is a Go index-out-of-range panic, modelled as `none`. -/
def collapseAux (orig : List Char) (len : Nat) :
    List Char → Nat → Bool → List Char → Option (List Char)
  | [], _, _, nl => some nl
  | c :: rest, i, prevSpace, nl =>
    if c = '\\' then
      if i = 0 then none
      else if orig[i - 1]? = some '\\' then
        collapseAux orig len rest (i + 1) prevSpace (nl ++ ['\\'])
      else collapseAux orig len rest (i + 1) prevSpace nl
    else if isGoSpace c then
      if prevSpace then
        if orig[i - 1]? = some '\\' then
          collapseAux orig len rest (i + 1) prevSpace (nl ++ [c])
        else collapseAux orig len rest (i + 1) prevSpace nl
      else
        if i ≠ len - 1 then collapseAux orig len rest (i + 1) true (nl ++ [' '])
        else collapseAux orig len rest (i + 1) true nl
    else collapseAux orig len rest (i + 1) false (nl ++ [c])

/-- Model of `collapseWhitespace`: collapse interior whitespace runs to a
single space, honouring backslash escapes, dropping a trailing space. -/
def collapseWhitespace (line : List Char) : Option (List Char) :=
  collapseAux line line.length line 0 false []

/-- Raw contents of one file: its physical lines. -/
abbrev RawFile := List (List Char)

/-- The filesystem seen by `readFile`: a map from path to raw lines.  A
missing path models an `os.Open` failure. -/
abbrev FS := List (String × RawFile)

/-- Association-list lookup, modelling Go map indexing. -/
def lookupA {α : Type} : List (String × α) → String → Option α
  | [], _ => none
  | (k', v) :: rest, k => if k' = k then some v else lookupA rest k

/-- Errors `readFile` can return. -/
inductive RErr where
  | openErr : String → RErr
  | firstIndented : RErr
deriving DecidableEq

/-- Result of `readFile`: the logical lines (originating line number and
text), a returned error, a runtime panic, or fuel exhaustion (recursion
deeper than the supplied fuel, impossible for the inputs studied). -/
inductive RRes where
  | ok : List (Nat × List Char) → RRes
  | err : RErr → RRes
  | panicked : RRes
  | fuelOut : RRes
deriving DecidableEq

/-- State of the scanner loop in `readFile`: either still running with
(lines so far, `i`, `no`), or finished early with a result. -/
inductive LoopSt where
  | running : List (Nat × List Char) → Nat → Nat → LoopSt
  | done : RRes → LoopSt

/-- The literal `"source "` prefix. -/
def srcTok : List Char := ['s', 'o', 'u', 'r', 'c', 'e', ' ']

/-- One iteration of the scanner loop in `readFile`, processing a single
raw line.  `recurse` performs the recursive `readFile` call of the
`source` directive. -/
def step (recurse : String → RRes) (st : LoopSt) (raw : List Char) : LoopSt :=
  match st with
  | .done r => .done r
  | .running lines i no =>
    let isIndented := match raw with
      | [] => false
      | c :: _ => isSpaceByte c
    let line := trimSpace raw
    if line = [] ∨ line.head? = some '#' then .running lines i (no + 1)
    else
      match removeComments line with
      | none => .done .panicked
      | some l1 =>
        match collapseWhitespace l1 with
        | none => .done .panicked
        | some pl =>
          if isIndented then
            if i = 0 then .done (.err .firstIndented)
            else
              match lines[i - 1]? with
              | none => .done .panicked
              | some (n, t) => .running (lines.set (i - 1) (n, t ++ ' ' :: pl)) i (no + 1)
          else
            if pl.take 7 = srcTok then
              match recurse (String.mk (pl.drop 7)) with
              | .ok sourced => .running (lines ++ sourced) (i + 1) (no + 1)
              | r => .done r
            else .running (lines ++ [(no + 1, pl)]) (i + 1) (no + 1)

/-- Model of `readFile`: read a file from `fs`, strip comments, collapse
indents, splice `source` directives recursively.  The fuel bounds the
`source` recursion depth. -/
def readFile (fs : FS) : Nat → String → RRes
  | 0, _ => .fuelOut
  | fuel + 1, file =>
    match lookupA fs file with
    | none => .err (.openErr file)
    | some raws =>
      match raws.foldl (step (readFile fs fuel)) (.running [] 0 0) with
      | .running lines _ _ => .ok lines
      | .done r => r

/-- Values produced by type handlers, modelling the Go `interface{}`
return of a `TypeHandler`: the built-in validators return the token slice
itself (`strs`); other converter results are opaque tagged values. -/
inductive Val where
  | strs : List String → Val
  | tagged : String → Val
deriving DecidableEq

/-- Model of the Go `TypeHandler` type: the tokens of the line (option
name removed) to a converted value or an error message. -/
abbrev TypeHandler := List String → Except String Val

/-- The process-wide `typeHandlers` table, passed explicitly: semantic
type name to converter chain. -/
abbrev Registry := List (String × List TypeHandler)

/-- Model of `RegisterType`: a later registration for the same type name
shadows earlier ones (map overwrite), since `lookupA` returns the first
match. -/
def RegisterType (reg : Registry) (typeName : String) (handlers : List TypeHandler) : Registry :=
  (typeName, handlers) :: reg

/-- A caller-supplied custom handler.  In Go it mutates the destination
struct directly and returns only an error; the mutation is modelled as a
returned list of field assignments. -/
abbrev HandlerFun := List String → Except String (List (String × Val))

/-- Model of the `Handlers` map (which may be nil). -/
abbrev Handlers := Option (List (String × HandlerFun))

/-- One field of the destination struct: name, declared type string, and
current value. -/
structure StructField where
  name : String
  type : String
  val : Val
deriving DecidableEq

/-- The destination config struct: its addressable exported fields. -/
abbrev Config := List StructField

/-- Whether `reflect.Value.FieldByName` finds an addressable field. -/
def hasField (cfg : Config) (n : String) : Bool :=
  cfg.any fun f => f.name == n

/-- Declared type string of a field (empty for a missing field; the
callers only use it for names produced by `fieldNameFromKey`). -/
def typeOf (cfg : Config) (n : String) : String :=
  match cfg.find? (fun f => f.name == n) with
  | some f => f.type
  | none => ""

/-- Assign a value into the named field, modelling `field.Set`. -/
def setField (cfg : Config) (n : String) (v : Val) : Config :=
  cfg.map fun f => if f.name == n then { f with val := v } else f

/-- Apply the field assignments a custom handler performed. -/
def applyAssigns (cfg : Config) (assigns : List (String × Val)) : Config :=
  assigns.foldl (fun c p => setField c p.1 p.2) cfg

/-- Go `strings.Replace(s, pat, rep, -1)`: replace all non-overlapping
occurrences left to right.  The fuel only bounds iteration; `goReplace`
supplies enough that the `0` case is unreachable (patterns here are
nonempty acronyms, so the empty-pattern insertion case of Go never
arises and is guarded off). -/
def goReplaceAux : Nat → List Char → List Char → List Char → List Char
  | 0, s, _, _ => s
  | fuel + 1, s, pat, rep =>
    match s with
    | [] => []
    | c :: rest =>
      if pat ≠ [] ∧ pat = s.take pat.length then
        rep ++ goReplaceAux fuel (s.drop pat.length) pat rep
      else c :: goReplaceAux fuel rest pat rep

/-- Go `strings.Replace` with count `-1`, on strings. -/
def goReplace (s pat rep : String) : String :=
  String.mk (goReplaceAux (s.data.length + 1) s.data pat.data rep.data)

/-- Go `strings.ToUpper` for the ASCII strings used here. -/
def toUpperStr (s : String) : String :=
  String.mk (s.data.map Char.toUpper)

/-- Modelled from the spec: the vendored `bitbucket.org/pkg/inflect`
package is not part of this repository; per the spec, `Camelize` splits
the raw key on hyphen, underscore and space, capitalizes each token, and
concatenates the tokens. -/
def Camelize (key : String) : String :=
  String.mk ((camelTokens key.data).map cap).flatten
where
  camelTokens : List Char → List (List Char)
    | [] => [[]]
    | c :: rest =>
      if c = '-' ∨ c = '_' ∨ c = ' ' then [] :: camelTokens rest
      else
        match camelTokens rest with
        | t :: ts => (c :: t) :: ts
        | [] => [[c]]
  cap : List Char → List Char
    | [] => []
    | c :: rest => c.toUpper :: rest

/-- Modelled from the spec: `inflect.Pluralize` is not part of this
repository; per the spec it forms the English plural of the field name.
For the regular nouns exercised here a word already ending in `s` is
unchanged and otherwise `s` is appended. -/
def Pluralize (s : String) : String :=
  if s.data.getLast? = some 's' then s else s ++ "s"

/-- The acronym table of `fieldNameFromKey`, in source order. -/
def acr : List String :=
  ["Api", "Ascii", "Cpu", "Css", "Dns", "Eof", "Guid", "Html",
   "Https", "Http", "Id", "Ip", "Json", "Lhs", "Qps", "Ram", "Rhs",
   "Rpc", "Sla", "Smtp", "Sql", "Ssh", "Tcp", "Tls", "Ttl", "Udp",
   "Ui", "Uid", "Uuid", "Uri", "Url", "Utf8", "Vm", "Xml", "Xsrf",
   "Xss"]

/-- The acronym-uppercasing loop of `fieldNameFromKey`. -/
def applyAcr (name : String) : String :=
  acr.foldl (fun n a => goReplace n a (toUpperStr a)) name

/-- Model of `fieldNameFromKey`: camel-case the key, uppercase acronyms,
then try the resulting name and, failing that, its plural. -/
def fieldNameFromKey (key : String) (cfg : Config) : Except String String :=
  let fieldName := applyAcr (Camelize key)
  if hasField cfg fieldName then .ok fieldName
  else
    let fieldNamePlural := Pluralize fieldName
    if hasField cfg fieldNamePlural then .ok fieldNamePlural
    else .error ("unknown option (field " ++ fieldName ++ " or " ++
      fieldNamePlural ++ " is missing)")

/-- Model of `setFromHandler`: returns whether a handler existed, and the
handler's outcome; a handler error is wrapped with `(from handler)`. -/
def setFromHandler (fieldName : String) (values : List String) (handlers : Handlers) :
    Bool × Except String (List (String × Val)) :=
  match handlers with
  | none => (false, .ok [])
  | some hm =>
    match lookupA hm fieldName with
    | none => (false, .ok [])
    | some h =>
      match h values with
      | .error e => (true, .error (e ++ " (from handler)"))
      | .ok assigns => (true, .ok assigns)

/-- The converter loop of `setFromTypeHandler`: `v, err = h(value)` for
each handler in order.  Every handler receives the original `value`; `v`
holds the last handler's result (`none` models the initial nil
`interface{}`). -/
def chainRun : List TypeHandler → List String → Option Val → Except String (Option Val)
  | [], _, v => .ok v
  | h :: hs, value, _ =>
    match h value with
    | .error e => .error e
    | .ok v => chainRun hs value (some v)

/-- Outcome of `setFromTypeHandler`. -/
inductive SetRes where
  | notFound : SetRes
  | ok : Val → SetRes
  | err : String → SetRes
  | panicked : SetRes
deriving DecidableEq

/-- Model of `setFromTypeHandler`: look the field's type up in the
registry and run the converter loop; on success the final value is
assigned (`ok`), on a converter error the field is left unmodified
(`err`).  An empty registered chain would make Go call
`reflect.ValueOf(nil)` and panic on `Set`. -/
def setFromTypeHandler (reg : Registry) (fieldType : String) (value : List String) : SetRes :=
  match lookupA reg fieldType with
  | none => .notFound
  | some hs =>
    match chainRun hs value none with
    | .error e => .err e
    | .ok none => .panicked
    | .ok (some v) => .ok v

/-- Model of `OneValue`. -/
def OneValue : TypeHandler := fun v =>
  if v.length ≠ 1 then .error "must have exactly one value"
  else .ok (.strs v)

/-- Model of `NValues` (Go `int` bounds modelled as `Int`). -/
def NValues (mn mx : Int) : TypeHandler := fun v =>
  if 0 < mn ∧ (v.length : Int) < mn then
    .error ("must have more than " ++ toString mn ++ " values (has: " ++
      toString v.length ++ ")")
  else if 0 < mx ∧ mx < (v.length : Int) then
    .error ("must have fewer than " ++ toString mx ++ " values (has: " ++
      toString v.length ++ ")")
  else .ok (.strs v)

/-- Errors `Parse` can return: a pass-through `readFile` error, or an
error formatted by `fmterr` with file, line number and key. -/
inductive PErr where
  | readE : RErr → PErr
  | fmtE : String → Nat → String → String → PErr
deriving DecidableEq

/-- Model of `fmterr`: attach file, line and key context to an error. -/
def fmterr (file : String) (line : Nat) (key : String) (msg : String) : PErr :=
  .fmtE file line key msg

/-- Result of `Parse`. -/
inductive PRes where
  | ok : Config → PRes
  | err : PErr → PRes
  | panicked : PRes
  | fuelOut : PRes
deriving DecidableEq

/-- Go `strings.Split(s, " ")`: split on every single space, keeping
empty fields. -/
def splitSp : List Char → List (List Char)
  | [] => [[]]
  | c :: rest =>
    if c = ' ' then [] :: splitSp rest
    else
      match splitSp rest with
      | t :: ts => (c :: t) :: ts
      | [] => [[c]]

/-- The key of a logical line: `v[0]` of the split. -/
def keyOf (text : List Char) : String :=
  String.mk ((splitSp text).headD [])

/-- The values of a logical line: `v[1:]` of the split. -/
def valsOf (text : List Char) : List String :=
  ((splitSp text).drop 1).map String.mk

/-- The per-line loop of `Parse`: resolve the field name, try the custom
handler, then the type-handler chain, else fail with the
unsupported-type error.  Every error of this loop goes through
`fmterr`. -/
def parseLines (file : String) (hs : Handlers) (reg : Registry) :
    Config → List (Nat × List Char) → PRes
  | cfg, [] => .ok cfg
  | cfg, (no, text) :: rest =>
    let key := keyOf text
    match fieldNameFromKey key cfg with
    | .error e => .err (fmterr file no key e)
    | .ok fieldName =>
      match setFromHandler fieldName (valsOf text) hs with
      | (true, .error e) => .err (fmterr file no key e)
      | (true, .ok assigns) => parseLines file hs reg (applyAssigns cfg assigns) rest
      | (false, _) =>
        match setFromTypeHandler reg (typeOf cfg fieldName) (valsOf text) with
        | .ok v => parseLines file hs reg (setField cfg fieldName v) rest
        | .err e => .err (fmterr file no key e)
        | .panicked => .panicked
        | .notFound => .err (fmterr file no key ("don" ++ String.singleton (Char.ofNat 39) ++
            "t know how to set fields of the type " ++ typeOf cfg fieldName))

/-- Model of `Parse`: read the file, then process each logical line in
order; a `readFile` error is returned to the caller as-is. -/
def Parse (fs : FS) (fuel : Nat) (c : Config) (file : String) (handlers : Handlers)
    (reg : Registry) : PRes :=
  match readFile fs fuel file with
  | .ok lines => parseLines file handlers reg c lines
  | .err r => .err (.readE r)
  | .panicked => .panicked
  | .fuelOut => .fuelOut

/-- A registry with a two-converter chain for type `T`: the first
converter prepends the token `x`, the second is the identity on its
input tokens. -/
def regC1 : Registry :=
  [("T", [fun v => .ok (.strs ("x" :: v)), fun v => .ok (.strs v)])]

/-- A destination struct with only the singular field `Record`. -/
def recSingular : Config := [⟨"Record", "[]string", .strs []⟩]

/-- A destination struct with only the plural field `Records`. -/
def recPlural : Config := [⟨"Records", "[]string", .strs []⟩]

/-- A filesystem where `main` sources an empty file and then has an
indented line, so the indented line is seen with `i = 1` but zero
logical lines. -/
def c3fs : FS := [("main", ["source empty".data, " x".data]), ("empty", [])]

/-- A filesystem whose only file starts with an indented line. -/
def c3fsSolo : FS := [("solo", [" x".data])]

/-- A filesystem where `main` has a logical line, then sources a
two-line file, then continues with an indented line. -/
def c4fs : FS :=
  [("main", ["a".data, "source two".data, " x".data]),
   ("two", ["b".data, "c".data])]

/-- A filesystem where `main` sources a two-line file and then has an
indented continuation line. -/
def c5fs : FS :=
  [("main", ["source sub".data, " x".data]),
   ("sub", ["b".data, "c".data])]

/-- A filesystem whose config file starts with an indented line. -/
def c6fs : FS := [("conf", [" x".data])]

/-- A filesystem whose config file's only line starts with a backslash
not followed by a hash. -/
def c10fs : FS := [("f", ["\\a".data])]

/-- A custom handler for the witness of the custom-handler claim. -/
def hdlW : HandlerFun := fun v =>
  if v = ["yup"] then .ok [("Bool", .tagged "true")] else .error "not a bool"

/-- Destination struct for the custom-handler witness. -/
def cfgW : Config := [⟨"Bool", "bool", .tagged "false"⟩]

/-- Handlers map for the custom-handler witness. -/
def hmW : List (String × HandlerFun) := [("Bool", hdlW)]

/-- A registry entry for the field's type, present only to show it is
never consulted when a custom handler exists. -/
def regPoison : Registry := [("bool", [OneValue])]

example : trimSpace "  a b ".data = "a b".data := by decide

example : removeComments "ab".data = some "ab".data := by decide
example : removeComments "a\\#b#c".data = some "a#b".data := by decide
example : removeComments "a #b".data = some "a ".data := by decide

example : collapseWhitespace "a   b".data = some "a b".data := by decide
example : collapseWhitespace "\\a".data = none := by decide
example : collapseWhitespace "a \\  b".data = some "a  b".data := by decide
example : collapseWhitespace "a ".data = some "a".data := by decide

example :
    readFile [("f", ["a b".data, "# c".data, "  cont".data])] 3 "f" =
      .ok [(1, "a b cont".data)] := by decide

example :
    readFile [("main", ["source sub".data, "d".data]), ("sub", ["s1".data])] 3 "main" =
      .ok [(1, "s1".data), (2, "d".data)] := by decide

example : Camelize "key-file" = "KeyFile" := by decide
example : Camelize "records" = "Records" := by decide
example : applyAcr "HttpUrl" = "HTTPURL" := by decide
example : Pluralize "Record" = "Records" := by decide
example : Pluralize "Records" = "Records" := by decide
example :
    fieldNameFromKey "record" [⟨"Records", "[]string", .strs []⟩] = .ok "Records" := rfl
example :
    fieldNameFromKey "records" [⟨"Record", "[]string", .strs []⟩] =
      .error "unknown option (field Records or Records is missing)" := rfl
example : keyOf "a b c".data = "a" := by decide
example : valsOf "a b c".data = ["b", "c"] := by decide
example : OneValue ["x", "y"] = .error "must have exactly one value" := rfl
example : NValues 2 3 ["x"] = .error "must have more than 2 values (has: 1)" := rfl
example :
    parseLines "f" none [] [⟨"User", "string", .tagged "u"⟩] [(1, "user martin".data)] =
      .err (fmterr "f" 1 "user" ("don" ++ String.singleton (Char.ofNat 39) ++
        "t know how to set fields of the type string")) := by
  decide
example :
    parseLines "f" none [("string", [OneValue])] [⟨"User", "string", .tagged "u"⟩]
      [(1, "user martin".data)] =
      .ok [⟨"User", "string", .strs ["martin"]⟩] := rfl

/-- C1: the code does not thread converter outputs.  With the registered
chain [prepend `x`, identity] and token list `[b]`, threading (as the
claim and the `RegisterType` doc comment describe) would assign
`strs [x, b]`; the code assigns `strs [b]`, because the loop
`v, err = h(value)` passes the original token list to every converter
and only keeps the last converter's result for the final assignment. -/
theorem C1_no_threading :
    setFromTypeHandler regC1 "T" ["b"] = SetRes.ok (Val.strs ["b"]) ∧
    SetRes.ok (Val.strs ["b"]) ≠ SetRes.ok (Val.strs ["x", "b"]) :=
  ⟨rfl, by decide⟩

/-- C2 counterexample: with a destination struct having only the singular
field `Record`, resolving the raw key `records` does not succeed — there
is no plural-to-singular fallback; the code only pluralizes, and
`Pluralize "Records" = "Records"` never reaches `Record`. -/
theorem C2_plural_key_fails :
    fieldNameFromKey "records" recSingular =
      .error "unknown option (field Records or Records is missing)" := rfl

/-- C2 amended: resolution falls back in the singular-to-plural direction
only: key `record` resolves to a `Records` field via pluralization, while
key `records` against a struct with only a `Record` field fails with the
unknown-option error. -/
theorem C2_resolution_amended :
    fieldNameFromKey "record" recPlural = .ok "Records" ∧
    fieldNameFromKey "records" recSingular =
      .error "unknown option (field Records or Records is missing)" :=
  ⟨rfl, rfl⟩

/-- C3: an indented line occurring before any logical line exists yields
the structural error only when no `source` directive preceded it; when
the only preceding non-indented line was a `source` directive that
produced zero logical lines, `i = 1` but `lines` is empty, and the merge
`lines[i-1]` is an index-out-of-range panic rather than the structural
error the claim promises. -/
theorem C3_source_then_indented_panics :
    readFile c3fs 3 "main" = RRes.panicked ∧
    readFile c3fsSolo 3 "solo" = RRes.err RErr.firstIndented :=
  ⟨rfl, rfl⟩

/-- C4: after a `source` directive that spliced two logical lines, the
counter `i` (2: two non-indented raw lines) lags `len(lines)` (3), so the
following indented line is appended to `lines[1]` — the first sourced
line `b` — rather than to the immediately preceding logical line `c` as
the claim states.  The code yields `[(1, a), (1, b x), (2, c)]` where the
claim requires `[(1, a), (1, b), (2, c x)]`. -/
theorem C4_merge_target_after_source :
    readFile c4fs 3 "main" =
      RRes.ok [(1, "a".data), (1, "b x".data), (2, "c".data)] := rfl

/-- C5: the output is not equal to the sourced file's logical lines
spliced in at the directive's position.  After `source sub` splices
`[(1, b), (2, c)]`, the indented continuation ` x` is merged into
`lines[0]` (because `i = 1` counts the one non-indented raw line), giving
`[(1, b x), (2, c)]`; textual splicing semantics would append the
continuation to the last spliced line, giving `[(1, b), (2, c x)]`. -/
theorem C5_source_splice_divergence :
    readFile c5fs 3 "main" = RRes.ok [(1, "b x".data), (2, "c".data)] ∧
    RRes.ok [(1, "b x".data), (2, "c".data)] ≠
      RRes.ok [(1, "b".data), (2, "c x".data)] :=
  ⟨rfl, by decide⟩

/-- C6 counterexample: the structural first-line-indented error reaches
the `Parse` caller as the bare `readFile` error, not enriched with file
path, line number or key (it is not of the `fmterr` shape). -/
theorem C6_unenriched_read_error :
    Parse c6fs 3 [] "conf" none [] = PRes.err (PErr.readE RErr.firstIndented) := rfl

/-- C9: the built-in arity converters validate before any assignment:
`OneValue` errors exactly when the token count differs from one;
`NValues mn mx` errors exactly when a positive lower bound exceeds the
count or a positive upper bound is exceeded (bounds inclusive, a
non-positive bound unbounded); and a chain guarded by `OneValue` fed two
tokens fails with the arity error before the real converter runs, leaving
the field unassigned. -/
theorem C9_arity_checks :
    (∀ v : List String, (∃ e, OneValue v = .error e) ↔ v.length ≠ 1) ∧
    (∀ (mn mx : Int) (v : List String),
        (∃ e, NValues mn mx v = .error e) ↔
          ((0 < mn ∧ (v.length : Int) < mn) ∨ (0 < mx ∧ mx < (v.length : Int)))) ∧
    (∀ (h : TypeHandler) (s1 s2 : String),
        setFromTypeHandler [("T", [OneValue, h])] "T" [s1, s2] =
          SetRes.err "must have exactly one value") := by
  refine ⟨?_, ?_, ?_⟩
  · intro v
    by_cases h : v.length = 1
    · simp [OneValue, h]
    · simp [OneValue, h]
  · intro mn mx v
    by_cases h1 : 0 < mn ∧ (v.length : Int) < mn
    · simp [NValues, h1]
    · by_cases h2 : 0 < mx ∧ mx < (v.length : Int)
      · simp [NValues, h1, h2]
      · simp [NValues, h1, h2]
  · intro h s1 s2
    rfl

/-- C6 amended: errors raised while processing a logical line (unknown
option, handler error, converter error, unsupported type) are always
enriched with the file path, the originating line number and the key —
every error `parseLines` returns has the `fmterr` shape for the parsed
file — while errors from the read phase (open failures, the
first-line-indented error) are returned by `Parse` to the caller as-is,
without enrichment. -/
theorem C6_error_enrichment :
    (∀ (file : String) (hs : Handlers) (reg : Registry) (cfg : Config)
        (ls : List (Nat × List Char)) (e : PErr),
        parseLines file hs reg cfg ls = .err e →
        ∃ no key msg, e = PErr.fmtE file no key msg) ∧
    (∀ (fs : FS) (fuel : Nat) (cfg : Config) (file : String) (hs : Handlers)
        (reg : Registry) (r : RErr),
        readFile fs fuel file = .err r →
        Parse fs fuel cfg file hs reg = .err (.readE r)) := by
  constructor
  · intro file hs reg cfg ls
    induction ls generalizing cfg with
    | nil =>
      intro e h
      exact absurd h (by simp [parseLines])
    | cons hd rest ih =>
      intro e h
      obtain ⟨no, text⟩ := hd
      simp only [parseLines] at h
      split at h
      · cases h
        exact ⟨no, keyOf text, _, rfl⟩
      · split at h
        · cases h
          exact ⟨no, keyOf text, _, rfl⟩
        · exact ih _ _ h
        · split at h
          · exact ih _ _ h
          · cases h
            exact ⟨no, keyOf text, _, rfl⟩
          · simp at h
          · cases h
            exact ⟨no, keyOf text, _, rfl⟩
  · intro fs fuel cfg file hs reg r h
    simp [Parse, h]

/-- Witness for C6 at concrete inputs: an unknown-option failure on line
3 of file `f` is reported through `fmterr` with that file, line and key,
and an open error for a missing top-level file passes through `Parse`
unenriched. -/
theorem C6_error_enrichment_witness :
    (∃ no key msg,
        PErr.fmtE "f" 3 "bogus" "unknown option (field Bogus or Bogus is missing)" =
          PErr.fmtE "f" no key msg) ∧
    Parse [] 3 [] "nofile" none [] = .err (.readE (.openErr "nofile")) :=
  ⟨C6_error_enrichment.1 "f" none [] [] [(3, "bogus x".data)] _ rfl,
   C6_error_enrichment.2 [] 3 [] "nofile" none [] (.openErr "nofile") rfl⟩

/-- C7: when the resolved field name has an entry in the custom handlers
map, the handler is invoked with the line's tokens minus the leading key
(`valsOf`); a handler error is wrapped with `(from handler)` inside the
`fmterr` context and fails the parse, handler success moves processing to
the next line with the handler's assignments applied — and in either case
the outcome is the same for every registry, i.e. the type registry is
never consulted for that line. -/
theorem C7_custom_handler
    (file : String) (hm : List (String × HandlerFun)) (cfg : Config)
    (no : Nat) (text : List Char) (rest : List (Nat × List Char))
    (fieldName : String) (hdl : HandlerFun)
    (hres : fieldNameFromKey (keyOf text) cfg = .ok fieldName)
    (hh : lookupA hm fieldName = some hdl) :
    (∀ e, hdl (valsOf text) = .error e →
      ∀ reg : Registry, parseLines file (some hm) reg cfg ((no, text) :: rest) =
        .err (PErr.fmtE file no (keyOf text) (e ++ " (from handler)"))) ∧
    (∀ assigns, hdl (valsOf text) = .ok assigns →
      ∀ reg : Registry, parseLines file (some hm) reg cfg ((no, text) :: rest) =
        parseLines file (some hm) reg (applyAssigns cfg assigns) rest) := by
  constructor
  · intro e he reg
    simp only [parseLines, hres, setFromHandler, hh, he, fmterr]
  · intro assigns ha reg
    simp only [parseLines, hres, setFromHandler, hh, ha]

/-- Witness for C7 at a concrete input: field `Bool` has a custom handler
that rejects the token `nope`; the parse of the line `bool nope` fails
with the wrapped handler error even though the registry has a (poisoned)
entry for the field's type. -/
theorem C7_custom_handler_witness :
    parseLines "f" (some hmW) regPoison cfgW [(1, "bool nope".data)] =
      PRes.err (PErr.fmtE "f" 1 "bool" "not a bool (from handler)") :=
  (C7_custom_handler "f" hmW cfgW 1 ("bool nope".data) [] "Bool" hdlW rfl rfl).1
    "not a bool" rfl regPoison

/-- C10: a logical line whose first character is a backslash not followed
by a hash — such as the raw line `\a`, which comment removal leaves
unchanged — makes `collapseWhitespace` read `line[i-1]` at `i = 0`, an
index-out-of-range panic; `readFile` crashes on such a file rather than
returning lines or an error. -/
theorem C10_collapse_crash :
    collapseWhitespace "\\a".data = none ∧
    readFile c10fs 3 "f" = RRes.panicked :=
  ⟨rfl, rfl⟩

/-- A found hash index is within the list. -/
theorem findHash_lt {l : List Char} {k : Nat} (h : findHash l = some k) : k < l.length := by
  induction l generalizing k with
  | nil => simp [findHash] at h
  | cons c rest ih =>
    by_cases hc : c = '#'
    · simp [findHash, hc] at h
      simp [List.length_cons]
      omega
    · simp [findHash, hc] at h
      obtain ⟨k', hk', hk⟩ := h
      have := ih hk'
      simp [List.length_cons]
      omega

/-- The character at a found hash index is a hash. -/
theorem findHash_hash {l : List Char} {k : Nat} (h : findHash l = some k) :
    l[k]? = some '#' := by
  induction l generalizing k with
  | nil => simp [findHash] at h
  | cons c rest ih =>
    by_cases hc : c = '#'
    · simp [findHash, hc] at h
      simp [← h, hc]
    · simp [findHash, hc] at h
      obtain ⟨k', hk', hk⟩ := h
      rw [← hk]
      simpa using ih hk'

/-- Searching past a hash-free prefix shifts the found index. -/
theorem findHash_append {a : List Char} (l : List Char) (ha : '#' ∉ a) :
    findHash (a ++ l) = (findHash l).map (a.length + ·) := by
  induction a with
  | nil => cases hf : findHash l <;> simp [hf]
  | cons c rest ih =>
    have hc : c ≠ '#' := fun h => ha (h ▸ List.mem_cons_self c rest)
    have hrest : '#' ∉ rest := fun h => ha (List.mem_cons_of_mem c h)
    cases hf : findHash l with
    | none => simp [findHash, hc, ih hrest, hf]
    | some k =>
      simp [findHash, hc, ih hrest, hf]
      omega

/-- Unfolding of `removeCommentsAux` when no further hash exists. -/
theorem rcAux_none (fuel : Nat) (l : List Char) (p : Nat)
    (hf : findHash (l.drop p) = none) :
    removeCommentsAux (fuel + 1) l p = some l := by
  simp only [removeCommentsAux, hf]

/-- Unfolding of `removeCommentsAux` when a hash is found at nonzero
absolute position. -/
theorem rcAux_step (fuel : Nat) (l : List Char) (p k : Nat)
    (hf : findHash (l.drop p) = some k) (hne : ¬ (p + k = 0)) :
    removeCommentsAux (fuel + 1) l p =
      if l[p + k - 1]? = some '\\' then
        removeCommentsAux fuel (l.take (p + k - 1) ++ l.drop (p + k)) (p + k)
      else some (l.take (p + k)) := by
  simp only [removeCommentsAux, hf, if_neg hne]

/-- A hash-free list has no found hash. -/
theorem findHash_none {l : List Char} (h : findHash l = none) : '#' ∉ l := by
  induction l with
  | nil => simp
  | cons c rest ih =>
    by_cases hc : c = '#'
    · simp [findHash, hc] at h
    · simp [findHash, hc] at h
      intro hmem
      rcases List.mem_cons.mp hmem with hh | hh
      · exact hc hh.symm
      · exact ih h hh

/-- The part of the list before a found hash is hash-free. -/
theorem findHash_take {l : List Char} {k : Nat} (h : findHash l = some k) :
    '#' ∉ l.take k := by
  induction l generalizing k with
  | nil => simp
  | cons c rest ih =>
    by_cases hc : c = '#'
    · simp [findHash, hc] at h
      obtain rfl : k = 0 := by omega
      simp
    · simp [findHash, hc] at h
      obtain ⟨k', hk', hk⟩ := h
      subst hk
      intro hmem
      rw [List.take_succ_cons] at hmem
      rcases List.mem_cons.mp hmem with hh | hh
      · exact hc hh.symm
      · exact ih hk' hh

/-- Unfolding of `rcSpec` on a leading unescaped hash. -/
theorem rcSpec_hash_cons (rest : List Char) : rcSpec ('#' :: rest) = [] := by
  cases rest <;> simp [rcSpec]

/-- Unfolding of `rcSpec` on a leading escaped hash. -/
theorem rcSpec_esc_cons (rest : List Char) :
    rcSpec ('\\' :: '#' :: rest) = '#' :: rcSpec rest := by
  simp [rcSpec]

/-- Unfolding of `rcSpec` on an ordinary character. -/
theorem rcSpec_cons_cons (c d : Char) (rest : List Char) (hc : c ≠ '#')
    (hcd : ¬ (c = '\\' ∧ d = '#')) :
    rcSpec (c :: d :: rest) = c :: rcSpec (d :: rest) := by
  simp [rcSpec, hc, hcd]

/-- The scan is the identity on hash-free text. -/
theorem rcSpec_no_hash {m : List Char} (h : '#' ∉ m) : rcSpec m = m := by
  induction m with
  | nil => rfl
  | cons c rest ih =>
    have hc : c ≠ '#' := fun hh => h (hh ▸ List.mem_cons_self c rest)
    have hrest : '#' ∉ rest := fun hh => h (List.mem_cons_of_mem c hh)
    cases rest with
    | nil => simp [rcSpec, hc]
    | cons d rest' =>
      have hd : d ≠ '#' := fun hh => hrest (hh ▸ List.mem_cons_self d rest')
      rw [rcSpec_cons_cons c d rest' hc (fun hx => hd hx.2), ih hrest]

/-- Every escaped hash reached by the scan becomes a literal hash, and
the scan continues after it: the escape never truncates. -/
theorem rcSpec_escape (mid rest : List Char) (hm : '#' ∉ mid) :
    rcSpec (mid ++ '\\' :: '#' :: rest) = mid ++ '#' :: rcSpec rest := by
  induction mid with
  | nil => simp [rcSpec_esc_cons]
  | cons c mid' ih =>
    have hc : c ≠ '#' := fun hh => hm (hh ▸ List.mem_cons_self c mid')
    have hm' : '#' ∉ mid' := fun hh => hm (List.mem_cons_of_mem c hh)
    cases mid' with
    | nil =>
      simp only [List.nil_append, List.cons_append]
      rw [rcSpec_cons_cons c '\\' ('#' :: rest) hc
        (fun hx => absurd hx.2 (by decide)), rcSpec_esc_cons]
    | cons e mid'' =>
      have he : e ≠ '#' := fun hh => hm' (hh ▸ List.mem_cons_self e mid'')
      simp only [List.cons_append]
      rw [rcSpec_cons_cons c e _ hc (fun hx => he hx.2)]
      rw [← List.cons_append, ih hm']
      simp

/-- The first unescaped hash reached by the scan truncates there. -/
theorem rcSpec_truncate (mid rest : List Char) (hm : '#' ∉ mid)
    (hlast : mid.getLast? ≠ some '\\') :
    rcSpec (mid ++ '#' :: rest) = mid := by
  induction mid with
  | nil => simp [rcSpec_hash_cons]
  | cons c mid' ih =>
    have hc : c ≠ '#' := fun hh => hm (hh ▸ List.mem_cons_self c mid')
    have hm' : '#' ∉ mid' := fun hh => hm (List.mem_cons_of_mem c hh)
    cases mid' with
    | nil =>
      have hcb : c ≠ '\\' := by
        intro hh
        exact hlast (by simp [hh])
      simp only [List.cons_append, List.nil_append]
      rw [rcSpec_cons_cons c '#' rest hc (fun hx => hcb hx.1), rcSpec_hash_cons]
    | cons e mid'' =>
      have he : e ≠ '#' := fun hh => hm' (hh ▸ List.mem_cons_self e mid'')
      have hlast' : (e :: mid'').getLast? ≠ some '\\' := by
        rwa [List.getLast?_cons_cons] at hlast
      simp only [List.cons_append]
      rw [rcSpec_cons_cons c e _ hc (fun hx => he hx.2)]
      rw [← List.cons_append, ih hm' hlast']

/-- Taking past an append whose left part has known length. -/
theorem take_append_of_length {α : Type} {a : List α} {n : Nat} (x : List α)
    (h : a.length = n) (m : Nat) : (a ++ x).take (n + m) = a ++ x.take m := by
  subst h
  exact List.take_append m

/-- Dropping past an append whose left part has known length. -/
theorem drop_append_of_length {α : Type} {a : List α} {n : Nat} (x : List α)
    (h : a.length = n) (m : Nat) : (a ++ x).drop (n + m) = x.drop m := by
  subst h
  exact List.drop_append m

/-- The comment loop computes the specification scan: starting at
position `p` (either past a literal hash with a non-backslash before it,
or at the start of a line not beginning with a hash), it keeps the first
`p` characters and resolves the rest exactly as `rcSpec` does, and it
cannot panic. -/
theorem rcAux_spec :
    ∀ (fuel : Nat) (l : List Char) (p : Nat), l.length - p < fuel →
      ((1 ≤ p ∧ l[p - 1]? ≠ some '\\') ∨ (p = 0 ∧ l.head? ≠ some '#')) →
      removeCommentsAux fuel l p = some (l.take p ++ rcSpec (l.drop p)) := by
  intro fuel
  induction fuel with
  | zero =>
    intro l p h _
    exact absurd h (by omega)
  | succ fuel ih =>
    intro l p hfuel hpre
    cases hf : findHash (l.drop p) with
    | none =>
      rw [rcAux_none fuel l p hf, rcSpec_no_hash (findHash_none hf),
        List.take_append_drop]
    | some k =>
      have hk : k < l.length - p := by
        have h1 := findHash_lt hf
        rwa [List.length_drop] at h1
      have hhash : l[p + k]? = some '#' := by
        have h1 := findHash_hash hf
        rwa [List.getElem?_drop] at h1
      have hmid : '#' ∉ (l.drop p).take k := findHash_take hf
      have hne : ¬ (p + k = 0) := by
        intro hzero
        rcases hpre with ⟨hp, _⟩ | ⟨hp0, hhead⟩
        · omega
        · rw [List.head?_eq_getElem?] at hhead
          apply hhead
          have h2 := hhash
          rw [show p + k = 0 from hzero] at h2
          exact h2
      have hstep := rcAux_step fuel l p k hf hne
      have hcmtlt : p + k < l.length := by omega
      have hdpk : l.drop (p + k) = '#' :: l.drop (p + k + 1) := by
        rw [List.drop_eq_getElem_cons hcmtlt]
        have h2 := hhash
        rw [List.getElem?_eq_getElem hcmtlt] at h2
        rw [Option.some.inj h2]
      by_cases hkz : k = 0
      · subst hkz
        have hnb : ¬ (l[p + 0 - 1]? = some '\\') := by
          rcases hpre with ⟨hp, hb⟩ | ⟨hp0, hhead⟩
          · rw [Nat.add_zero]
            exact hb
          · exact absurd (by omega : p + 0 = 0) hne
        rw [if_neg hnb] at hstep
        rw [Nat.add_zero] at hstep hdpk
        rw [hstep, hdpk, rcSpec_hash_cons]
        simp
      · have hk1 : 1 ≤ k := by omega
        have hTlen : (l.take (p + k - 1)).length = p + k - 1 := by
          rw [List.length_take]
          exact inf_eq_left.mpr (by omega)
        by_cases hbs : l[p + k - 1]? = some '\\'
        · rw [if_pos hbs] at hstep
          have hihfuel :
              (l.take (p + k - 1) ++ l.drop (p + k)).length - (p + k) < fuel := by
            rw [List.length_append, hTlen, List.length_drop]
            omega
          have hihback :
              (l.take (p + k - 1) ++ l.drop (p + k))[p + k - 1]? ≠ some '\\' := by
            rw [List.getElem?_append_right (by rw [hTlen]), hTlen, Nat.sub_self,
              List.getElem?_drop, Nat.add_zero, hhash]
            simp
          have hih := ih (l.take (p + k - 1) ++ l.drop (p + k)) (p + k) hihfuel
            (Or.inl ⟨by omega, hihback⟩)
          have htk : (l.take (p + k - 1) ++ l.drop (p + k)).take (p + k) =
              l.take (p + k - 1) ++ ['#'] := by
            have h1take : (l.drop (p + k)).take 1 = ['#'] := by
              rw [hdpk]
              simp
            calc (l.take (p + k - 1) ++ l.drop (p + k)).take (p + k)
                = (l.take (p + k - 1) ++ l.drop (p + k)).take ((p + k - 1) + 1) := by
                  rw [show (p + k - 1) + 1 = p + k from by omega]
              _ = l.take (p + k - 1) ++ (l.drop (p + k)).take 1 :=
                  take_append_of_length _ hTlen 1
              _ = l.take (p + k - 1) ++ ['#'] := by rw [h1take]
          have hdr : (l.take (p + k - 1) ++ l.drop (p + k)).drop (p + k) =
              l.drop (p + k + 1) := by
            calc (l.take (p + k - 1) ++ l.drop (p + k)).drop (p + k)
                = (l.take (p + k - 1) ++ l.drop (p + k)).drop ((p + k - 1) + 1) := by
                  rw [show (p + k - 1) + 1 = p + k from by omega]
              _ = (l.drop (p + k)).drop 1 :=
                  drop_append_of_length _ hTlen 1
              _ = l.drop (p + k + 1) := by
                  rw [hdpk]
                  simp
          rw [hstep, hih, htk, hdr]
          have hmid' : '#' ∉ (l.drop p).take (k - 1) := by
            intro hmem
            apply hmid
            have heq : (l.drop p).take (k - 1) = ((l.drop p).take k).take (k - 1) := by
              rw [List.take_take, inf_eq_left.mpr (by omega)]
            rw [heq] at hmem
            exact List.take_subset _ _ hmem
          have hmtk : l.drop p =
              (l.drop p).take (k - 1) ++ '\\' :: '#' :: l.drop (p + k + 1) := by
            conv_lhs => rw [← List.take_append_drop (k - 1) (l.drop p)]
            congr 1
            rw [List.drop_drop, show p + (k - 1) = p + k - 1 from by omega]
            have h1 : p + k - 1 < l.length := by omega
            rw [List.drop_eq_getElem_cons h1]
            have h2 := hbs
            rw [List.getElem?_eq_getElem h1] at h2
            rw [Option.some.inj h2]
            congr 1
            rw [show p + k - 1 + 1 = p + k from by omega]
            exact hdpk
          rw [hmtk, rcSpec_escape _ _ hmid']
          have hta : l.take (p + k - 1) = l.take p ++ (l.drop p).take (k - 1) := by
            rw [show p + k - 1 = p + (k - 1) from by omega, List.take_add]
          rw [hta]
          simp
        · rw [if_neg hbs] at hstep
          rw [hstep]
          have hmtk : l.drop p = (l.drop p).take k ++ '#' :: l.drop (p + k + 1) := by
            conv_lhs => rw [← List.take_append_drop k (l.drop p)]
            congr 1
            rw [List.drop_drop]
            exact hdpk
          have hlastmid : ((l.drop p).take k).getLast? ≠ some '\\' := by
            rw [List.getLast?_eq_getElem?]
            have hlen2 : ((l.drop p).take k).length = k := by
              rw [List.length_take, List.length_drop]
              exact inf_eq_left.mpr (by omega)
            rw [hlen2, List.getElem?_take, if_pos (by omega), List.getElem?_drop,
              show p + (k - 1) = p + k - 1 from by omega]
            exact hbs
          rw [hmtk, rcSpec_truncate _ _ hmid hlastmid, List.take_add]

/-- Model-level counterpart of the specification scan: on any line whose
first character is not a hash (the only lines `readFile` hands to it),
`removeComments` succeeds and returns exactly the `rcSpec` scan. -/
theorem removeComments_spec (l : List Char) (h : l.head? ≠ some '#') :
    removeComments l = some (rcSpec l) := by
  have h1 := rcAux_spec (l.length + 1) l 0 (by omega) (Or.inr ⟨rfl, h⟩)
  simpa [removeComments] using h1

/-- Comment removal turns an escaped hash after a hash-free prefix into a
literal hash at that position, keeping the prefix, not truncating there,
and resolving the remainder by the same scan. -/
theorem removeComments_escaped (a b : List Char) (ha : '#' ∉ a) :
    removeComments (a ++ '\\' :: '#' :: b) = some (a ++ '#' :: rcSpec b) := by
  have hh : (a ++ '\\' :: '#' :: b).head? ≠ some '#' := by
    cases a with
    | nil => simp
    | cons c a' =>
      have hc : c ≠ '#' := fun hx => ha (hx ▸ List.mem_cons_self c a')
      simp [hc]
  rw [removeComments_spec _ hh, rcSpec_escape _ _ ha]

/-- Comment removal truncates at the first unescaped hash: with a
hash-free nonempty prefix not ending in a backslash, everything from the
hash on is discarded. -/
theorem removeComments_truncates (a b : List Char) (ha : '#' ∉ a) (hne : a ≠ [])
    (hlast : a.getLast? ≠ some '\\') :
    removeComments (a ++ '#' :: b) = some a := by
  have hh : (a ++ '#' :: b).head? ≠ some '#' := by
    cases a with
    | nil => exact absurd rfl hne
    | cons c a' =>
      have hc : c ≠ '#' := fun hx => ha (hx ▸ List.mem_cons_self c a')
      simp [hc]
  rw [removeComments_spec _ hh, rcSpec_truncate _ _ ha hlast]

/-- A raw line that is a comment after trimming leaves the scanner state
unchanged apart from the line counter. -/
theorem step_comment_skip (f : String → RRes) (lines : List (Nat × List Char))
    (i no : Nat) (raw : List Char) (h : (trimSpace raw).head? = some '#') :
    step f (LoopSt.running lines i no) raw = LoopSt.running lines i (no + 1) := by
  simp [step, h]

/-- C8: a raw line whose first character after trimming is a hash
produces no logical line (the scanner state is unchanged apart from the
physical line counter); on every other line `removeComments` coincides
with the left-to-right specification scan `rcSpec`, under which every
occurrence of `\#` yields a literal `#` at its position with the scan
continuing past it (no truncation there), and only the first unescaped
`#` starts the discarded comment. -/
theorem C8_comment_handling :
    (∀ (f : String → RRes) (lines : List (Nat × List Char)) (i no : Nat)
        (raw : List Char), (trimSpace raw).head? = some '#' →
        step f (LoopSt.running lines i no) raw = LoopSt.running lines i (no + 1)) ∧
    (∀ l : List Char, l.head? ≠ some '#' → removeComments l = some (rcSpec l)) ∧
    (∀ mid rest : List Char, '#' ∉ mid →
        rcSpec (mid ++ '\\' :: '#' :: rest) = mid ++ '#' :: rcSpec rest) ∧
    (∀ mid rest : List Char, '#' ∉ mid → mid.getLast? ≠ some '\\' →
        rcSpec (mid ++ '#' :: rest) = mid) ∧
    (∀ a b : List Char, '#' ∉ a →
        removeComments (a ++ '\\' :: '#' :: b) = some (a ++ '#' :: rcSpec b)) :=
  ⟨step_comment_skip, removeComments_spec, rcSpec_escape, rcSpec_truncate,
   removeComments_escaped⟩

/-- Witness for C8 at concrete inputs: the comment line `  # note` is
skipped; on `a\#b\#c#d` both escaped hashes become literal and the
unescaped one truncates, giving `a#b#c`; the scan equations and the
escape property evaluate accordingly on concrete text. -/
theorem C8_comment_handling_witness :
    step (fun _ => RRes.fuelOut) (LoopSt.running [] 0 0) "  # note".data =
      LoopSt.running [] 0 1 ∧
    removeComments "a\\#b\\#c#d".data = some "a#b#c".data ∧
    rcSpec ("xy".data ++ '\\' :: '#' :: "z".data) =
      "xy".data ++ '#' :: rcSpec "z".data ∧
    rcSpec ("q".data ++ '#' :: "r".data) = "q".data ∧
    removeComments ("ab".data ++ '\\' :: '#' :: "cd".data) =
      some ("ab".data ++ '#' :: rcSpec "cd".data) :=
  ⟨C8_comment_handling.1 (fun _ => RRes.fuelOut) [] 0 0 "  # note".data (by decide),
   (C8_comment_handling.2.1 ("a\\#b\\#c#d".data) (by decide)).trans (by decide),
   C8_comment_handling.2.2.1 "xy".data "z".data (by decide),
   C8_comment_handling.2.2.2.1 "q".data "r".data (by decide) (by decide),
   C8_comment_handling.2.2.2.2 "ab".data "cd".data (by decide)⟩

end sconfig
